import Mathlib

/-!
# Verification of the `library/names.py` singly-linked list

The source is a Python singly-linked list of names.  We embed it with an
explicit arena: every node ever allocated lives in `arena` (its Python
object identity is its index), a node stores its name and the index of its
successor, and the list holds the index of the head node or `none` when
empty.  `add`, `remove` and `display` are translated loop by loop, the
unbounded `while` loops receiving `arena.length` as fuel (sufficient, since
a well-formed chain visits pairwise distinct addresses).

The predicate `Seg arena o stop as ns` captures a pointer chain from `o`
to `stop` visiting addresses `as` holding names `ns`; `Reps L ns` says the
list state `L` represents the sequence of names `ns`.  The development
proves a simulation between the pointer-level operations and plain list
operations, from which the behavioural properties follow.
-/

set_option autoImplicit false

namespace Names

/-- A list node, mirroring `Node.__init__`: it stores the name and the
arena index of the next node (`none` at the tail). -/
structure Node where
  name : String
  next : Option Nat
deriving DecidableEq, Repr

/-- The linked list state: `arena` holds every node ever allocated
(indices play the role of Python object references) and `head` is the
index of the first node, or `none` when the list is empty
(`LinkedList.__init__`). -/
structure LinkedList where
  arena : List Node
  head : Option Nat
deriving DecidableEq, Repr

/-- A freshly constructed, empty list. -/
def LinkedList.empty : LinkedList := ⟨[], none⟩

/-- Overwrite the `next` field of the node stored at index `p`
(the assignment `prev.next = current.next` / `current.next = new_node`). -/
def setNext (arena : List Node) (p : Nat) (nx : Option Nat) : List Node :=
  match arena[p]? with
  | none => arena
  | some nd => arena.set p ⟨nd.name, nx⟩

/-- Fueled traversal to the last node of the chain starting at `a`:
the `while current.next` loop of `add`. -/
def lastAddr (arena : List Node) (fuel : Nat) (a : Nat) : Nat :=
  match fuel with
  | 0 => a
  | fuel + 1 =>
    match arena[a]? with
    | none => a
    | some nd =>
      match nd.next with
      | none => a
      | some b => lastAddr arena fuel b

/-- `LinkedList.add`: allocate a node holding `name`; if the list is empty
the new node becomes the head, otherwise it is linked after the last node,
found by a full traversal from `head`. -/
def LinkedList.add (L : LinkedList) (name : String) : LinkedList :=
  match L.head with
  | none => ⟨L.arena ++ [Node.mk name none], some L.arena.length⟩
  | some h =>
    ⟨setNext (L.arena ++ [Node.mk name none])
        (lastAddr (L.arena ++ [Node.mk name none])
          (L.arena ++ [Node.mk name none]).length h)
        (some L.arena.length), some h⟩

/-- The `while current` loop of `LinkedList.remove`, tracking the previous
node, with explicit fuel: on the first node whose name matches, the
previous node's `next` (or `head`, when there is no previous node) is
redirected to the matched node's successor and `true` is returned;
reaching the end of the chain returns `false` with the state untouched. -/
def removeAux (L : LinkedList) (name : String) : Option Nat → Option Nat → Nat → Bool × LinkedList
  | _, _, 0 => (false, L)
  | prv, cur, fuel + 1 =>
    match cur with
    | none => (false, L)
    | some c =>
      match L.arena[c]? with
      | none => (false, L)
      | some nd =>
        if nd.name = name then
          match prv with
          | some p => (true, ⟨setNext L.arena p nd.next, L.head⟩)
          | none => (true, ⟨L.arena, nd.next⟩)
        else
          removeAux L name (some c) nd.next fuel

/-- `LinkedList.remove`: unlink the first node whose name equals `name`,
returning whether a match was found together with the new state. -/
def LinkedList.remove (L : LinkedList) (name : String) : Bool × LinkedList :=
  removeAux L name none L.head L.arena.length

/-- The `while current` loop of `display`: the names from `cur` to the
tail, in chain order. -/
def displayAux (arena : List Node) : Option Nat → Nat → List String
  | _, 0 => []
  | cur, fuel + 1 =>
    match cur with
    | none => []
    | some c =>
      match arena[c]? with
      | none => []
      | some nd => nd.name :: displayAux arena nd.next fuel

/-- The sequence of names enumerated by `display`, head to tail. -/
def LinkedList.displayNames (L : LinkedList) : List String :=
  displayAux L.arena L.head L.arena.length

/-- The console lines printed by `display`: the empty-list message when
`head` is `none`, otherwise one line per name. -/
def LinkedList.displayLines (L : LinkedList) : List String :=
  match L.head with
  | none => ["The list is empty."]
  | some _ => L.displayNames

/-- `display` as a state transformer: it produces its output lines and
returns the state unchanged (the loop reads the chain through a local
cursor and performs no assignment to the list or its nodes). -/
def LinkedList.displayRun (L : LinkedList) : List String × LinkedList :=
  (L.displayLines, L)

/-- Apply a sequence of `add` calls in order. -/
def LinkedList.addAll (L : LinkedList) (names : List String) : LinkedList :=
  names.foldl LinkedList.add L

/-- One call of the public interface. -/
inductive Op where
  | add (name : String)
  | remove (name : String)
  | display
deriving DecidableEq

/-- Execute one operation, keeping the resulting state. -/
def stepOp (L : LinkedList) : Op → LinkedList
  | .add n => L.add n
  | .remove n => (L.remove n).2
  | .display => (L.displayRun).2

/-- Run a sequence of operations starting from the empty list. -/
def run (ops : List Op) : LinkedList :=
  ops.foldl stepOp LinkedList.empty

/-- Remove the first occurrence of `x` from a plain list of names: the
abstract counterpart of `LinkedList.remove`. -/
def eraseFirst (x : String) : List String → List String
  | [] => []
  | n :: rest => if n = x then rest else n :: eraseFirst x rest

/-- `Seg arena stop o as ns`: starting from the pointer `o` and following
`next` fields in `arena`, the nodes at addresses `as`, holding names `ns`,
are visited in order, after which the pointer `stop` is reached. -/
inductive Seg (arena : List Node) (stop : Option Nat) : Option Nat → List Nat → List String → Prop
  | nil : Seg arena stop stop [] []
  | cons {a : Nat} {nd : Node} {as : List Nat} {ns : List String} :
      arena[a]? = some nd → Seg arena stop nd.next as ns →
      Seg arena stop (some a) (a :: as) (nd.name :: ns)

/-- The list state `L` represents the sequence of names `ns`: the chain
from `head` terminates and visits exactly the names `ns`. -/
def Reps (L : LinkedList) (ns : List String) : Prop :=
  ∃ as, Seg L.arena none L.head as ns

/-! ## Basic properties of chain segments -/

lemma Seg.frame {arena arena1 : List Node} {o stop : Option Nat} {as : List Nat}
    {ns : List String} (h : Seg arena stop o as ns)
    (hf : ∀ a ∈ as, arena1[a]? = arena[a]?) : Seg arena1 stop o as ns := by
  induction h with
  | nil => exact Seg.nil
  | cons hget hrest ih =>
    exact Seg.cons (by rw [hf _ (List.mem_cons_self _ _)]; exact hget)
      (ih fun a ha => hf a (List.mem_cons_of_mem _ ha))

lemma Seg.lt_length {arena : List Node} {o stop : Option Nat} {as : List Nat}
    {ns : List String} (h : Seg arena stop o as ns) :
    ∀ a ∈ as, a < arena.length := by
  induction h with
  | nil => intro a ha; cases ha
  | cons hget hrest ih =>
    intro b hb
    rcases List.mem_cons.mp hb with rfl | hb
    · exact (List.getElem?_eq_some_iff.mp hget).1
    · exact ih b hb

lemma Seg.trans {arena : List Node} {o m s : Option Nat} {as1 as2 : List Nat}
    {ns1 ns2 : List String} (h1 : Seg arena m o as1 ns1)
    (h2 : Seg arena s m as2 ns2) : Seg arena s o (as1 ++ as2) (ns1 ++ ns2) := by
  induction h1 with
  | nil => simpa using h2
  | cons hget hrest ih => exact Seg.cons hget ih

lemma seg_none_unique {arena : List Node} :
    ∀ {o : Option Nat} {as1 : List Nat} {ns1 : List String},
    Seg arena none o as1 ns1 →
    ∀ {as2 : List Nat} {ns2 : List String}, Seg arena none o as2 ns2 →
    as1 = as2 ∧ ns1 = ns2 := by
  intro o as1 ns1 h1
  induction h1 with
  | nil =>
    intro as2 ns2 h2
    cases h2 with
    | nil => exact ⟨rfl, rfl⟩
  | cons hget hrest ih =>
    intro as2 ns2 h2
    cases h2 with
    | cons hget2 hrest2 =>
      rename_i nd2 as2 ns2
      obtain rfl : nd2 = _ := Option.some.inj (hget2.symm.trans hget)
      exact ⟨by rw [(ih hrest2).1], by rw [(ih hrest2).2]⟩

lemma seg_mem_chain {arena : List Node} :
    ∀ {o : Option Nat} {as : List Nat} {ns : List String},
    Seg arena none o as ns → ∀ {b : Nat}, b ∈ as →
    ∃ s t, Seg arena none (some b) s t ∧ s.length ≤ as.length := by
  intro o as ns h
  induction h with
  | nil => intro b hb; cases hb
  | cons hget hrest ih =>
    intro b hb
    rcases List.mem_cons.mp hb with rfl | hb
    · exact ⟨_, _, Seg.cons hget hrest, le_refl _⟩
    · obtain ⟨s, t, hs, hl⟩ := ih hb
      exact ⟨s, t, hs, le_trans hl (Nat.le_succ _)⟩

lemma Seg.nodup {arena : List Node} :
    ∀ {o : Option Nat} {as : List Nat} {ns : List String},
    Seg arena none o as ns → as.Nodup := by
  intro o as ns h
  induction h with
  | nil => exact List.nodup_nil
  | cons hget hrest ih =>
    refine List.nodup_cons.mpr ⟨?_, ih⟩
    intro hmem
    obtain ⟨s, t, hs, hl⟩ := seg_mem_chain hrest hmem
    have heq := (seg_none_unique hs (Seg.cons hget hrest)).1
    rw [heq] at hl
    simp at hl

lemma Seg.length_le {arena : List Node} {o : Option Nat} {as : List Nat}
    {ns : List String} (h : Seg arena none o as ns) :
    as.length ≤ arena.length := by
  have hnd := h.nodup
  calc as.length = as.toFinset.card := (List.toFinset_card_of_nodup hnd).symm
    _ ≤ (Finset.range arena.length).card := Finset.card_le_card (by
        intro a ha
        exact Finset.mem_range.mpr (h.lt_length a (List.mem_toFinset.mp ha)))
    _ = arena.length := Finset.card_range _

lemma Seg.names_length {arena : List Node} {o stop : Option Nat} {as : List Nat}
    {ns : List String} (h : Seg arena stop o as ns) : ns.length = as.length := by
  induction h with
  | nil => rfl
  | cons hget hrest ih => simpa using ih

lemma seg_some_ne_nil {arena : List Node} {b : Nat} {as : List Nat}
    {ns : List String} (h : Seg arena none (some b) as ns) : as ≠ [] := by
  cases h; simp

/-! ## Reads and writes through `setNext` -/

lemma setNext_getElem_ne (arena : List Node) (p : Nat) (nx : Option Nat)
    {b : Nat} (hb : b ≠ p) : (setNext arena p nx)[b]? = arena[b]? := by
  unfold setNext
  cases h : arena[p]? with
  | none => rfl
  | some nd => exact List.getElem?_set_ne fun h2 => hb h2.symm

lemma setNext_getElem_self {arena : List Node} {p : Nat} {nx : Option Nat}
    {nd : Node} (h : arena[p]? = some nd) :
    (setNext arena p nx)[p]? = some ⟨nd.name, nx⟩ := by
  unfold setNext
  rw [h]
  exact List.getElem?_set_self (List.getElem?_eq_some_iff.mp h).1

/-! ## `display` enumerates the represented sequence -/

lemma displayAux_spec {arena : List Node} :
    ∀ {o : Option Nat} {as : List Nat} {ns : List String},
    Seg arena none o as ns → ∀ {fuel : Nat}, as.length ≤ fuel →
    displayAux arena o fuel = ns := by
  intro o as ns h
  induction h with
  | nil =>
    intro fuel hf
    cases fuel <;> rfl
  | cons hget hrest ih =>
    intro fuel hf
    cases fuel with
    | zero => simp at hf
    | succ n =>
      simp only [displayAux, hget]
      exact congrArg _ (ih (Nat.le_of_succ_le_succ hf))

lemma displayNames_eq {L : LinkedList} {ns : List String} (h : Reps L ns) :
    L.displayNames = ns := by
  obtain ⟨as, hseg⟩ := h
  exact displayAux_spec hseg hseg.length_le

/-! ## Locating the last node of a chain -/

lemma getLastD_mem {l : List Nat} (d : Nat) (h : l ≠ []) : l.getLastD d ∈ l := by
  induction l generalizing d with
  | nil => exact absurd rfl h
  | cons c t ih =>
    rw [List.getLastD_cons]
    cases t with
    | nil => simp [List.getLastD]
    | cons c2 t2 => exact List.mem_cons_of_mem _ (ih c (by simp))

lemma getLastD_irrel {l : List Nat} (h : l ≠ []) (d1 d2 : Nat) :
    l.getLastD d1 = l.getLastD d2 := by
  cases l with
  | nil => exact absurd rfl h
  | cons c t => rw [List.getLastD_cons, List.getLastD_cons]

lemma lastAddr_spec {arena : List Node} :
    ∀ {o : Option Nat} {as : List Nat} {ns : List String},
    Seg arena none o as ns →
    ∀ {a : Nat}, o = some a →
    ∀ {fuel : Nat}, as.length ≤ fuel →
    lastAddr arena fuel a = as.getLastD a := by
  intro o as ns h
  induction h with
  | nil => intro a ha; cases ha
  | cons hget hrest ih =>
    rename_i b nd as ns
    intro a ha fuel hf
    obtain rfl : b = a := by injection ha
    cases fuel with
    | zero => simp at hf
    | succ n =>
      cases hnx : nd.next with
      | none =>
        rw [hnx] at hrest
        cases hrest
        simp [lastAddr, hget, hnx, List.getLastD_cons, List.getLastD]
      | some b2 =>
        have hne : as ≠ [] := seg_some_ne_nil (hnx ▸ hrest)
        have hih := ih hnx (Nat.le_of_succ_le_succ hf)
        calc lastAddr arena (n + 1) b = lastAddr arena n b2 := by
              simp [lastAddr, hget, hnx]
          _ = as.getLastD b2 := hih
          _ = as.getLastD b := getLastD_irrel hne _ _
          _ = (b :: as).getLastD b := (List.getLastD_cons _ _ _).symm

/-! ## Appending a fresh tail node preserves the chain -/

lemma seg_snoc {arena : List Node} {q : Nat} {qn : String}
    (hq : arena[q]? = some ⟨qn, none⟩) :
    ∀ {o : Option Nat} {as : List Nat} {ns : List String},
    Seg arena none o as ns → q ∉ as →
    ∀ {a : Nat}, o = some a →
    Seg (setNext arena (as.getLastD a) (some q)) none o (as ++ [q]) (ns ++ [qn]) := by
  intro o as ns h
  induction h with
  | nil => intro hq2 a ha; cases ha
  | cons hget hrest ih =>
    rename_i b nd as ns
    intro hqmem a ha
    obtain rfl : b = a := by injection ha
    have hnodup := (Seg.cons hget hrest).nodup
    have hanotin : b ∉ as := (List.nodup_cons.mp hnodup).1
    have hqa : q ≠ b := fun h2 => hqmem (h2 ▸ List.mem_cons_self _ _)
    have hqas : q ∉ as := fun h2 => hqmem (List.mem_cons_of_mem _ h2)
    cases hnx : nd.next with
    | none =>
      rw [hnx] at hrest
      cases hrest
      rw [show ([b] : List Nat).getLastD b = b from rfl]
      refine @Seg.cons _ _ b (Node.mk nd.name (some q)) _ _
        (setNext_getElem_self hget) ?_
      refine @Seg.cons _ _ q (Node.mk qn none) _ _ ?_ Seg.nil
      rw [setNext_getElem_ne _ _ _ hqa]
      exact hq
    | some b2 =>
      rw [hnx] at hrest
      have hne : as ≠ [] := seg_some_ne_nil hrest
      have hlast_mem : as.getLastD b2 ∈ as := getLastD_mem b2 hne
      have halast : b ≠ as.getLastD b2 := fun h2 => hanotin (h2 ▸ hlast_mem)
      have hih := ih hqas hnx
      rw [hnx] at hih
      rw [show (b :: as).getLastD b = as.getLastD b2 by
        rw [List.getLastD_cons]; exact getLastD_irrel hne _ _]
      refine @Seg.cons _ _ b nd _ _ ?_ ?_
      · rw [setNext_getElem_ne _ _ _ halast]
        exact hget
      · rw [hnx]
        exact hih

/-! ## `add` appends one name at the tail -/

lemma add_seg {L : LinkedList} {ns : List String} {as : List Nat}
    (h : Seg L.arena none L.head as ns) (name : String) :
    Seg (L.add name).arena none (L.add name).head
      (as ++ [L.arena.length]) (ns ++ [name]) := by
  cases hh : L.head with
  | none =>
    rw [hh] at h
    cases h
    simp only [LinkedList.add, hh, List.nil_append]
    exact @Seg.cons _ _ L.arena.length (Node.mk name none) _ _
      (List.getElem?_concat_length _ _) Seg.nil
  | some h0 =>
    rw [hh] at h
    have hseg1 : Seg (L.arena ++ [Node.mk name none]) none (some h0) as ns :=
      h.frame fun a ha => List.getElem?_append_left (h.lt_length a ha)
    have hnotin : L.arena.length ∉ as := fun hmem =>
      Nat.lt_irrefl _ (h.lt_length _ hmem)
    have hq : (L.arena ++ [Node.mk name none])[L.arena.length]? =
        some (Node.mk name none) :=
      List.getElem?_concat_length _ _
    have hlast : lastAddr (L.arena ++ [Node.mk name none])
        (L.arena ++ [Node.mk name none]).length h0 = as.getLastD h0 :=
      lastAddr_spec hseg1 rfl hseg1.length_le
    have hres := seg_snoc hq hseg1 hnotin rfl
    simp only [LinkedList.add, hh]
    rw [hlast]
    exact hres

lemma add_reps {L : LinkedList} {ns : List String} (h : Reps L ns)
    (name : String) : Reps (L.add name) (ns ++ [name]) := by
  obtain ⟨as, hseg⟩ := h
  exact Exists.intro _ (add_seg hseg name)

/-! ## First-occurrence removal on plain lists -/

lemma eraseFirst_cons_self (x : String) (ns : List String) :
    eraseFirst x (x :: ns) = ns := by
  simp [eraseFirst]

lemma eraseFirst_cons_ne {x n : String} (h : n ≠ x) (ns : List String) :
    eraseFirst x (n :: ns) = n :: eraseFirst x ns := by
  simp [eraseFirst, h]

lemma eraseFirst_of_not_mem {x : String} :
    ∀ {ns : List String}, x ∉ ns → eraseFirst x ns = ns := by
  intro ns
  induction ns with
  | nil => intro; rfl
  | cons n rest ih =>
    intro hx
    have hne : n ≠ x := fun h2 => hx (h2 ▸ List.mem_cons_self _ _)
    rw [eraseFirst_cons_ne hne, ih fun h2 => hx (List.mem_cons_of_mem _ h2)]

lemma eraseFirst_append_of_not_mem {x : String} :
    ∀ {ns1 : List String} (ns2 : List String), x ∉ ns1 →
    eraseFirst x (ns1 ++ ns2) = ns1 ++ eraseFirst x ns2 := by
  intro ns1
  induction ns1 with
  | nil => intro ns2 _; rfl
  | cons n rest ih =>
    intro ns2 hx
    have hne : n ≠ x := fun h2 => hx (h2 ▸ List.mem_cons_self _ _)
    rw [List.cons_append, eraseFirst_cons_ne hne,
      ih ns2 fun h2 => hx (List.mem_cons_of_mem _ h2), List.cons_append]

lemma eraseFirst_length {x : String} :
    ∀ {ns : List String}, x ∈ ns → (eraseFirst x ns).length + 1 = ns.length := by
  intro ns
  induction ns with
  | nil => intro h; cases h
  | cons n rest ih =>
    intro hx
    by_cases hne : n = x
    · subst hne
      rw [eraseFirst_cons_self]
      rfl
    · rw [eraseFirst_cons_ne hne]
      have hmem : x ∈ rest := by
        rcases List.mem_cons.mp hx with h2 | h2
        · exact absurd h2.symm hne
        · exact h2
      simpa using ih hmem

/-! ## `remove` without a match is the identity -/

lemma removeAux_not_found {L : LinkedList} {name : String} :
    ∀ {cur : Option Nat} {as : List Nat} {ns : List String},
    Seg L.arena none cur as ns → name ∉ ns →
    ∀ (prv : Option Nat) {fuel : Nat}, as.length ≤ fuel →
    removeAux L name prv cur fuel = (false, L) := by
  intro cur as ns h
  induction h with
  | nil =>
    intro hn prv fuel hf
    cases fuel <;> rfl
  | cons hget hrest ih =>
    rename_i a nd as ns
    intro hn prv fuel hf
    cases fuel with
    | zero => simp at hf
    | succ n =>
      have hne : ¬nd.name = name := fun h2 => hn (h2 ▸ List.mem_cons_self _ _)
      simp only [removeAux, hget]
      rw [if_neg hne]
      exact ih (fun h2 => hn (List.mem_cons_of_mem _ h2)) (some a)
        (Nat.le_of_succ_le_succ hf)

lemma remove_not_found {L : LinkedList} {ns : List String} {name : String}
    (h : Reps L ns) (hn : name ∉ ns) : L.remove name = (false, L) := by
  obtain ⟨as, hseg⟩ := h
  exact removeAux_not_found hseg hn none hseg.length_le

/-! ## `remove` with a match unlinks the first matching node -/

lemma remove_head_match {L : LinkedList} {name : String} {a : Nat} {nd : Node}
    (hh : L.head = some a) (hget : L.arena[a]? = some nd)
    (hname : nd.name = name) :
    L.remove name = (true, ⟨L.arena, nd.next⟩) := by
  have ha : a < L.arena.length := (List.getElem?_eq_some_iff.mp hget).1
  obtain ⟨k, hk⟩ : ∃ k, L.arena.length = k + 1 := ⟨L.arena.length - 1, by omega⟩
  unfold LinkedList.remove
  rw [hh, hk]
  simp only [removeAux, hget]
  rw [if_pos hname]

lemma removeAux_found_loop {L : LinkedList} {name : String} :
    ∀ {cur : Option Nat} {assuf : List Nat} {nssuf : List String},
    Seg L.arena none cur assuf nssuf → name ∈ nssuf →
    ∀ {p : Nat} {pn : String} {asp : List Nat} {nsp : List String},
    L.arena[p]? = some (Node.mk pn cur) →
    Seg L.arena (some p) L.head asp nsp →
    (asp ++ p :: assuf).Nodup →
    ∀ {fuel : Nat}, assuf.length ≤ fuel →
    ∃ L2 : LinkedList, removeAux L name (some p) cur fuel = (true, L2) ∧
      L2.head = L.head ∧ Reps L2 (nsp ++ pn :: eraseFirst name nssuf) := by
  intro cur assuf nssuf h
  induction h with
  | nil => intro hmem; cases hmem
  | cons hget hrest ih =>
    rename_i c nd assuf nssuf
    intro hmem p pn asp nsp hgetp hfront hnodup fuel hf
    cases fuel with
    | zero => simp at hf
    | succ n =>
      by_cases hname : nd.name = name
      · -- the matched node is `c`; its predecessor `p` is redirected
        have hpc : p ∉ asp ++ c :: assuf := by
          have := hnodup
          rw [List.nodup_append] at this
          intro hmem2
          rcases List.mem_append.mp hmem2 with h2 | h2
          · exact this.2.2 h2 (List.mem_cons_self _ _)
          · exact (List.nodup_cons.mp this.2.1).1 h2
        have hpnotasp : p ∉ asp := fun h2 => hpc (List.mem_append_left _ h2)
        have hpc2 : p ≠ c := fun h2 =>
          hpc (List.mem_append_right _ (h2 ▸ List.mem_cons_self _ _))
        have hpsuf : p ∉ assuf := fun h2 =>
          hpc (List.mem_append_right _ (List.mem_cons_of_mem _ h2))
        have hfront2 : Seg (setNext L.arena p nd.next) (some p) L.head asp nsp :=
          hfront.frame fun b hb =>
            setNext_getElem_ne _ _ _ fun h2 => hpnotasp (h2 ▸ hb)
        have hgetp2 : (setNext L.arena p nd.next)[p]? =
            some (Node.mk pn nd.next) := setNext_getElem_self hgetp
        have hsuffix2 : Seg (setNext L.arena p nd.next) none nd.next assuf nssuf :=
          hrest.frame fun b hb =>
            setNext_getElem_ne _ _ _ fun h2 => hpsuf (h2 ▸ hb)
        refine ⟨⟨setNext L.arena p nd.next, L.head⟩, ?_, rfl, ?_⟩
        · simp only [removeAux, hget]
          rw [if_pos hname]
        · rw [hname, eraseFirst_cons_self]
          exact Exists.intro _
            (hfront2.trans (@Seg.cons _ _ p (Node.mk pn nd.next) _ _
              hgetp2 hsuffix2))
      · -- no match at `c`: one more loop iteration
        have hmem2 : name ∈ nssuf := by
          rcases List.mem_cons.mp hmem with h2 | h2
          · exact absurd h2.symm hname
          · exact h2
        have hgetc : L.arena[c]? = some (Node.mk nd.name nd.next) := hget
        have hfront2 : Seg L.arena (some c) L.head (asp ++ [p]) (nsp ++ [pn]) :=
          hfront.trans (@Seg.cons _ _ p (Node.mk pn (some c)) _ _ hgetp Seg.nil)
        have hnodup2 : ((asp ++ [p]) ++ c :: assuf).Nodup := by
          rw [List.append_assoc]
          exact hnodup
        obtain ⟨L2, heq, hhd, hreps⟩ :=
          ih hmem2 hgetc hfront2 hnodup2 (Nat.le_of_succ_le_succ hf)
        refine ⟨L2, ?_, hhd, ?_⟩
        · simp only [removeAux, hget]
          rw [if_neg hname]
          exact heq
        · rw [eraseFirst_cons_ne hname]
          rw [List.append_assoc] at hreps
          exact hreps

lemma remove_found {L : LinkedList} {ns : List String} {name : String}
    (h : Reps L ns) (hn : name ∈ ns) :
    (L.remove name).1 = true ∧ Reps (L.remove name).2 (eraseFirst name ns) := by
  obtain ⟨as, hseg⟩ := h
  cases hh : L.head with
  | none =>
    rw [hh] at hseg
    cases hseg
    cases hn
  | some a =>
    rw [hh] at hseg
    cases hseg with
    | cons hget hrest =>
      rename_i nd as2 ns2
      by_cases hname : nd.name = name
      · rw [remove_head_match hh hget hname]
        refine ⟨rfl, ?_⟩
        rw [← hname, eraseFirst_cons_self]
        exact Exists.intro _ hrest
      · have hmem2 : name ∈ ns2 := by
          rcases List.mem_cons.mp hn with h2 | h2
          · exact absurd h2.symm hname
          · exact h2
        have ha : a < L.arena.length := (List.getElem?_eq_some_iff.mp hget).1
        obtain ⟨k, hk⟩ : ∃ k, L.arena.length = k + 1 :=
          ⟨L.arena.length - 1, by omega⟩
        have hfull : Seg L.arena none (some a) (a :: as2) (nd.name :: ns2) :=
          Seg.cons hget hrest
        have hk2 : as2.length ≤ k := by
          have := hfull.length_le
          simp only [List.length_cons, hk] at this
          omega
        have hfront : Seg L.arena (some a) L.head [] [] := by
          rw [hh]; exact Seg.nil
        obtain ⟨L2, heq, hhd, hreps⟩ :=
          removeAux_found_loop hrest hmem2 (p := a)
            (show L.arena[a]? = some (Node.mk nd.name nd.next) from hget) hfront
            (by simpa using hfull.nodup) hk2
        have hrm : L.remove name = (true, L2) := by
          unfold LinkedList.remove
          rw [hh, hk]
          simp only [removeAux, hget]
          rw [if_neg hname]
          exact heq
        rw [hrm]
        refine ⟨rfl, ?_⟩
        rw [eraseFirst_cons_ne hname]
        simpa using hreps

/-! ## Combined simulation facts -/

lemma remove_reps {L : LinkedList} {ns : List String} (name : String)
    (h : Reps L ns) : Reps (L.remove name).2 (eraseFirst name ns) := by
  by_cases hn : name ∈ ns
  · exact (remove_found h hn).2
  · rw [remove_not_found h hn, eraseFirst_of_not_mem hn]
    exact h

lemma remove_ret_iff {L : LinkedList} {ns : List String} (name : String)
    (h : Reps L ns) : (L.remove name).1 = true ↔ name ∈ ns := by
  constructor
  · intro hret
    by_contra hn
    rw [remove_not_found h hn] at hret
    cases hret
  · intro hn
    exact (remove_found h hn).1

lemma empty_reps : Reps LinkedList.empty [] := Exists.intro _ Seg.nil

lemma addAll_reps :
    ∀ (names : List String) {L : LinkedList} {ns : List String}, Reps L ns →
    Reps (L.addAll names) (ns ++ names) := by
  intro names
  induction names with
  | nil =>
    intro L ns h
    simpa [LinkedList.addAll] using h
  | cons n rest ih =>
    intro L ns h
    have h3 := ih (add_reps h n)
    simp only [LinkedList.addAll, List.foldl_cons] at h3 ⊢
    rw [List.append_assoc] at h3
    simpa using h3

lemma reps_head_none_iff {L : LinkedList} {ns : List String} (h : Reps L ns) :
    L.head = none ↔ ns = [] := by
  obtain ⟨as, hseg⟩ := h
  constructor
  · intro hh
    rw [hh] at hseg
    cases hseg
    rfl
  · intro hns
    subst hns
    cases hhead : L.head with
    | none => rfl
    | some a =>
      rw [hhead] at hseg
      cases hseg

lemma displayLines_eq {L : LinkedList} {ns : List String} (h : Reps L ns) :
    L.displayLines = if ns = [] then ["The list is empty."] else ns := by
  by_cases hns : ns = []
  · subst hns
    unfold LinkedList.displayLines
    rw [(reps_head_none_iff h).mpr rfl]
    simp
  · have hh : L.head ≠ none := fun h2 => hns ((reps_head_none_iff h).mp h2)
    unfold LinkedList.displayLines
    cases hhead : L.head with
    | none => exact absurd hhead hh
    | some a => simp [hns, displayNames_eq h]

/-! ## Decomposing a list at the first occurrence of an element -/

lemma first_occurrence {x : String} :
    ∀ {ns : List String}, x ∈ ns →
    ∃ ns1 ns2, ns = ns1 ++ x :: ns2 ∧ x ∉ ns1 := by
  intro ns
  induction ns with
  | nil => intro h; cases h
  | cons n rest ih =>
    intro hx
    by_cases hn : n = x
    · exact ⟨[], rest, by simp [hn], by simp⟩
    · have hmem : x ∈ rest := by
        rcases List.mem_cons.mp hx with h2 | h2
        · exact absurd h2.symm hn
        · exact h2
      obtain ⟨ns1, ns2, heq, hnot⟩ := ih hmem
      exact ⟨n :: ns1, ns2, by rw [heq, List.cons_append], by
        intro h2
        rcases List.mem_cons.mp h2 with h3 | h3
        · exact hn h3.symm
        · exact hnot h3⟩

lemma eraseFirst_first_occurrence {x : String} {ns1 ns2 : List String}
    (h : x ∉ ns1) : eraseFirst x (ns1 ++ x :: ns2) = ns1 ++ ns2 := by
  rw [eraseFirst_append_of_not_mem _ h, eraseFirst_cons_self]

/-! ## The structural invariant: acyclicity and unique predecessors -/

lemma seg_cursor_head {arena : List Node} {o : Option Nat} {as : List Nat}
    {ns : List String} (h : Seg arena none o as ns) : o = as.head? := by
  cases h with
  | nil => rfl
  | cons hget hrest => rfl

lemma seg_inv_cons {arena : List Node} {o : Option Nat} {as : List Nat}
    {ns : List String} (h : Seg arena none o as ns) (hne : ns ≠ []) :
    ∃ a nd as2 ns2, o = some a ∧ arena[a]? = some nd ∧
      as = a :: as2 ∧ ns = nd.name :: ns2 ∧ Seg arena none nd.next as2 ns2 := by
  cases h with
  | nil => exact absurd rfl hne
  | cons hget hrest => exact ⟨_, _, _, _, rfl, hget, rfl, rfl, hrest⟩

lemma seg_next_eq {arena : List Node} :
    ∀ {o : Option Nat} {as : List Nat} {ns : List String},
    Seg arena none o as ns →
    ∀ {as1 : List Nat} {i : Nat} {as2 : List Nat}, as = as1 ++ i :: as2 →
    ∃ ni, arena[i]? = some ni ∧ ni.next = as2.head? := by
  intro o as ns h
  induction h with
  | nil =>
    intro as1 i as2 heq
    exact absurd heq (by simp)
  | cons hget hrest ih =>
    rename_i a nd as ns
    intro as1 i as2 heq
    cases as1 with
    | nil =>
      simp only [List.nil_append, List.cons.injEq] at heq
      obtain ⟨rfl, rfl⟩ := heq
      exact ⟨nd, hget, seg_cursor_head hrest⟩
    | cons b as1 =>
      simp only [List.cons_append, List.cons.injEq] at heq
      obtain ⟨rfl, heq2⟩ := heq
      exact ih heq2

lemma nodup_middle_unique {α : Type _} {a : α} :
    ∀ {s1 t1 s2 t2 : List α}, (s1 ++ a :: t1).Nodup →
    s1 ++ a :: t1 = s2 ++ a :: t2 → s1 = s2 := by
  intro s1
  induction s1 with
  | nil =>
    intro t1 s2 t2 hnd heq
    cases s2 with
    | nil => rfl
    | cons b s2 =>
      exfalso
      simp only [List.nil_append, List.cons_append, List.cons.injEq] at heq
      obtain ⟨rfl, rfl⟩ := heq
      exact (List.nodup_cons.mp hnd).1 (by simp)
  | cons b s1 ih =>
    intro t1 s2 t2 hnd heq
    cases s2 with
    | nil =>
      exfalso
      simp only [List.cons_append, List.nil_append, List.cons.injEq] at heq
      obtain ⟨rfl, rfl⟩ := heq
      exact (List.nodup_cons.mp hnd).1 (by simp)
    | cons c s2 =>
      simp only [List.cons_append, List.cons.injEq] at heq
      obtain ⟨rfl, heq2⟩ := heq
      rw [ih (List.nodup_cons.mp hnd).2 heq2]

lemma seg_unique_pred {arena : List Node} {o : Option Nat} {as : List Nat}
    {ns : List String} (h : Seg arena none o as ns)
    {i j b : Nat} (hi : i ∈ as) (hj : j ∈ as) {ni nj : Node}
    (hgi : arena[i]? = some ni) (hni : ni.next = some b)
    (hgj : arena[j]? = some nj) (hnj : nj.next = some b) : i = j := by
  obtain ⟨s1, t1, heq1⟩ := List.append_of_mem hi
  obtain ⟨s2, t2, heq2⟩ := List.append_of_mem hj
  obtain ⟨ni2, hgi2, hni2⟩ := seg_next_eq h heq1
  obtain ⟨nj2, hgj2, hnj2⟩ := seg_next_eq h heq2
  obtain rfl : ni2 = ni := Option.some.inj (hgi2.symm.trans hgi)
  obtain rfl : nj2 = nj := Option.some.inj (hgj2.symm.trans hgj)
  rw [hni] at hni2
  rw [hnj] at hnj2
  cases t1 with
  | nil => cases hni2
  | cons b1 t1 =>
    cases t2 with
    | nil => cases hnj2
    | cons b2 t2 =>
      obtain rfl : b = b1 := Option.some.inj hni2
      obtain rfl : b = b2 := Option.some.inj hnj2
      have h1 : as = (s1 ++ [i]) ++ b :: t1 := by rw [heq1]; simp
      have h2 : as = (s2 ++ [j]) ++ b :: t2 := by rw [heq2]; simp
      have hnd : ((s1 ++ [i]) ++ b :: t1).Nodup := h1 ▸ h.nodup
      have heq3 : (s1 ++ [i]) ++ b :: t1 = (s2 ++ [j]) ++ b :: t2 :=
        h1.symm.trans h2
      have hpre := nodup_middle_unique hnd heq3
      have := congrArg List.getLast? hpre
      rw [List.getLast?_concat, List.getLast?_concat] at this
      exact Option.some.inj this

/-! ## Well-formedness holds after any sequence of operations -/

lemma foldl_reps :
    ∀ (ops : List Op) {L : LinkedList} {ns : List String}, Reps L ns →
    ∃ ns2, Reps (ops.foldl stepOp L) ns2 := by
  intro ops
  induction ops with
  | nil =>
    intro L ns h
    exact ⟨ns, h⟩
  | cons op rest ih =>
    intro L ns h
    cases op with
    | add n => exact ih (add_reps h n)
    | remove n => exact ih (remove_reps n h)
    | display => exact ih h

lemma run_reps (ops : List Op) : ∃ ns, Reps (run ops) ns :=
  foldl_reps ops empty_reps

/-! ## The claimed properties -/

/-- C1: for every sequence of `add` calls applied to the initially empty
linked list, a subsequent `display` enumerates exactly the names in the
order they were added, head to tail: `add` always appends at the tail and
`display` walks the chain from `head`. -/
theorem claim_C1_add_insertion_order (names : List String) :
    (LinkedList.empty.addAll names).displayNames = names := by
  have h := addAll_reps names empty_reps
  rw [List.nil_append] at h
  exact displayNames_eq h

/-- C2: removing a name that does not occur in the represented sequence
returns `false` and leaves the list state completely unchanged. -/
theorem claim_C2_remove_absent_noop {L : LinkedList} {ns : List String}
    {x : String} (h : Reps L ns) (hx : x ∉ ns) :
    L.remove x = (false, L) :=
  remove_not_found h hx

/-- C2 witness: removing "Zed" from the two-element list "Alice", "Bob"
returns `false` and changes nothing. -/
theorem claim_C2_witness :
    (LinkedList.mk [Node.mk "Alice" (some 1), Node.mk "Bob" none]
        (some 0)).remove "Zed"
      = (false, LinkedList.mk [Node.mk "Alice" (some 1), Node.mk "Bob" none]
        (some 0)) :=
  @claim_C2_remove_absent_noop
    (LinkedList.mk [Node.mk "Alice" (some 1), Node.mk "Bob" none] (some 0))
    ["Alice", "Bob"] "Zed"
    (Exists.intro [0, 1]
      (@Seg.cons _ none 0 (Node.mk "Alice" (some 1)) [1] ["Bob"] rfl
        (@Seg.cons _ none 1 (Node.mk "Bob" none) [] [] rfl Seg.nil)))
    (by decide)

/-- C3: when `x` occurs exactly once, `remove x` returns `true` and a
subsequent `display` yields the original sequence with that single `x`
omitted and every other name in its original relative order. -/
theorem claim_C3_remove_unique_occurrence {L : LinkedList} {ns : List String}
    {x : String} (h : Reps L ns) (hx : ns.count x = 1) :
    (L.remove x).1 = true ∧
    ∃ ns1 ns2, ns = ns1 ++ x :: ns2 ∧ x ∉ ns1 ∧ x ∉ ns2 ∧
      (L.remove x).2.displayNames = ns1 ++ ns2 := by
  have hmem : x ∈ ns := by
    rw [← List.count_pos_iff]
    omega
  obtain ⟨ns1, ns2, heq, hnot1⟩ := first_occurrence hmem
  have hnot2 : x ∉ ns2 := by
    rw [heq, List.count_append, List.count_cons_self,
      List.count_eq_zero.mpr hnot1] at hx
    exact List.count_eq_zero.mp (by omega)
  refine ⟨(remove_found h hmem).1, ns1, ns2, heq, hnot1, hnot2, ?_⟩
  have hreps := (remove_found h hmem).2
  rw [heq, eraseFirst_first_occurrence hnot1] at hreps
  exact displayNames_eq hreps

/-- C3 witness: removing "Bob" from "Alice", "Bob", "Charlie" (one
occurrence) returns `true` and displays "Alice", "Charlie". -/
theorem claim_C3_witness :
    ((LinkedList.mk [Node.mk "Alice" (some 1), Node.mk "Bob" (some 2),
        Node.mk "Charlie" none] (some 0)).remove "Bob").1 = true ∧
    ∃ ns1 ns2, ["Alice", "Bob", "Charlie"] = ns1 ++ "Bob" :: ns2 ∧
      "Bob" ∉ ns1 ∧ "Bob" ∉ ns2 ∧
      ((LinkedList.mk [Node.mk "Alice" (some 1), Node.mk "Bob" (some 2),
        Node.mk "Charlie" none] (some 0)).remove "Bob").2.displayNames
        = ns1 ++ ns2 :=
  @claim_C3_remove_unique_occurrence
    (LinkedList.mk [Node.mk "Alice" (some 1), Node.mk "Bob" (some 2),
      Node.mk "Charlie" none] (some 0))
    ["Alice", "Bob", "Charlie"] "Bob"
    (Exists.intro [0, 1, 2]
      (@Seg.cons _ none 0 (Node.mk "Alice" (some 1)) [1, 2] ["Bob", "Charlie"] rfl
        (@Seg.cons _ none 1 (Node.mk "Bob" (some 2)) [2] ["Charlie"] rfl
          (@Seg.cons _ none 2 (Node.mk "Charlie" none) [] [] rfl Seg.nil))))
    (by decide)

/-- C4: when `x` occurs more than once, `remove x` removes exactly the
earliest occurrence, leaving every later duplicate in place, and a second
`remove x` then removes the next earliest occurrence. -/
theorem claim_C4_remove_first_of_duplicates {L : LinkedList}
    {ns1 ns2 : List String} {x : String} (h : Reps L (ns1 ++ x :: ns2))
    (h1 : x ∉ ns1) (h2 : x ∈ ns2) :
    (L.remove x).1 = true ∧
    Reps (L.remove x).2 (ns1 ++ ns2) ∧
    ((L.remove x).2.remove x).1 = true ∧
    ∃ ns3 ns4, ns2 = ns3 ++ x :: ns4 ∧ x ∉ ns3 ∧
      Reps (((L.remove x).2).remove x).2 (ns1 ++ (ns3 ++ ns4)) := by
  have hmem1 : x ∈ ns1 ++ x :: ns2 := List.mem_append_right _ (List.mem_cons_self _ _)
  have hfirst := remove_found h hmem1
  have hreps1 : Reps (L.remove x).2 (ns1 ++ ns2) := by
    have := hfirst.2
    rwa [eraseFirst_first_occurrence h1] at this
  have hmem2 : x ∈ ns1 ++ ns2 := List.mem_append_right _ h2
  have hsecond := remove_found hreps1 hmem2
  obtain ⟨ns3, ns4, heq34, hnot3⟩ := first_occurrence h2
  refine ⟨hfirst.1, hreps1, hsecond.1, ns3, ns4, heq34, hnot3, ?_⟩
  have := hsecond.2
  rw [eraseFirst_append_of_not_mem _ h1, heq34,
    eraseFirst_first_occurrence hnot3] at this
  exact this

/-- C4 witness: in "a", "x", "x", the first `remove "x"` keeps the later
duplicate, the second removes it. -/
theorem claim_C4_witness :
    (((LinkedList.mk [Node.mk "a" (some 1), Node.mk "x" (some 2),
        Node.mk "x" none] (some 0)).remove "x").1 = true) ∧
    Reps ((LinkedList.mk [Node.mk "a" (some 1), Node.mk "x" (some 2),
        Node.mk "x" none] (some 0)).remove "x").2 (["a"] ++ ["x"]) ∧
    ((((LinkedList.mk [Node.mk "a" (some 1), Node.mk "x" (some 2),
        Node.mk "x" none] (some 0)).remove "x").2.remove "x").1 = true) ∧
    ∃ ns3 ns4, ["x"] = ns3 ++ "x" :: ns4 ∧ "x" ∉ ns3 ∧
      Reps ((((LinkedList.mk [Node.mk "a" (some 1), Node.mk "x" (some 2),
        Node.mk "x" none] (some 0)).remove "x").2).remove "x").2
        (["a"] ++ (ns3 ++ ns4)) :=
  @claim_C4_remove_first_of_duplicates
    (LinkedList.mk [Node.mk "a" (some 1), Node.mk "x" (some 2),
      Node.mk "x" none] (some 0))
    ["a"] ["x"] "x"
    (Exists.intro [0, 1, 2]
      (@Seg.cons _ none 0 (Node.mk "a" (some 1)) [1, 2] ["x", "x"] rfl
        (@Seg.cons _ none 1 (Node.mk "x" (some 2)) [2] ["x"] rfl
          (@Seg.cons _ none 2 (Node.mk "x" none) [] [] rfl Seg.nil))))
    (by decide) (by decide)

/-- C5: `remove` on an empty list (`head` is `none`) returns `false` and
the list remains empty afterwards. -/
theorem claim_C5_remove_empty {L : LinkedList} {x : String}
    (h : L.head = none) :
    L.remove x = (false, L) ∧ (L.remove x).2.head = none := by
  have hrm : L.remove x = (false, L) := by
    unfold LinkedList.remove
    rw [h]
    cases L.arena.length with
    | zero => rfl
    | succ n => rfl
  exact ⟨hrm, by rw [hrm]; exact h⟩

/-- C5 witness: removing "Alice" from the freshly constructed empty list. -/
theorem claim_C5_witness :
    LinkedList.empty.remove "Alice" = (false, LinkedList.empty) ∧
    (LinkedList.empty.remove "Alice").2.head = none :=
  claim_C5_remove_empty rfl

/-- C6: when the matched node is the head, `remove` updates `head` to the
matched node's successor; removing the sole element empties the list, and
a subsequent `display` prints the empty-list message. -/
theorem claim_C6_remove_head_updates_head {L : LinkedList} {x : String}
    {ns : List String} (h : Reps L (x :: ns)) :
    (L.remove x).1 = true ∧
    (∃ a nd, L.head = some a ∧ L.arena[a]? = some nd ∧ nd.name = x ∧
      (L.remove x).2.head = nd.next) ∧
    Reps (L.remove x).2 ns ∧
    (ns = [] → (L.remove x).2.head = none ∧
      (L.remove x).2.displayLines = ["The list is empty."]) := by
  obtain ⟨as, hseg⟩ := h
  obtain ⟨a, nd, as2, ns2, hh, hget, has, hns, hrest⟩ :=
    seg_inv_cons hseg (by simp)
  obtain ⟨hname, hns2⟩ : nd.name = x ∧ ns2 = ns := by
    have := hns.symm
    injection this with h1 h2
    exact ⟨h1, h2⟩
  subst hns2
  have hrm := remove_head_match hh hget hname
  rw [hrm]
  refine ⟨rfl, ⟨a, nd, hh, hget, hname, rfl⟩, Exists.intro _ hrest, ?_⟩
  intro hnse
  subst hnse
  have hlen : as2 = [] := List.eq_nil_of_length_eq_zero (by
    have := hrest.names_length
    simpa using this.symm)
  subst hlen
  have hnext : nd.next = none := seg_cursor_head hrest
  constructor
  · exact hnext
  · show LinkedList.displayLines _ = _
    unfold LinkedList.displayLines
    rw [hnext]

/-- C6 witness: removing "Alice" from the one-element list "Alice" returns
`true`, sets `head` to the removed node's successor (`none`), and
`display` then prints the empty-list message. -/
theorem claim_C6_witness :
    ((LinkedList.mk [Node.mk "Alice" none] (some 0)).remove "Alice").1 = true ∧
    (∃ a nd, (LinkedList.mk [Node.mk "Alice" none] (some 0)).head = some a ∧
      (LinkedList.mk [Node.mk "Alice" none] (some 0)).arena[a]? = some nd ∧
      nd.name = "Alice" ∧
      ((LinkedList.mk [Node.mk "Alice" none] (some 0)).remove "Alice").2.head
        = nd.next) ∧
    Reps ((LinkedList.mk [Node.mk "Alice" none] (some 0)).remove "Alice").2 [] ∧
    (([] : List String) = [] →
      ((LinkedList.mk [Node.mk "Alice" none] (some 0)).remove "Alice").2.head
        = none ∧
      ((LinkedList.mk [Node.mk "Alice" none]
        (some 0)).remove "Alice").2.displayLines = ["The list is empty."]) :=
  @claim_C6_remove_head_updates_head
    (LinkedList.mk [Node.mk "Alice" none] (some 0)) "Alice" []
    (Exists.intro [0]
      (@Seg.cons _ none 0 (Node.mk "Alice" none) [] [] rfl Seg.nil))

/-- C7: `display` is a pure enumeration: it leaves the state untouched and
produces the represented names head to tail, or the single empty-list
message when the list is empty. -/
theorem claim_C7_display_pure {L : LinkedList} {ns : List String}
    (h : Reps L ns) :
    L.displayRun = (if ns = [] then ["The list is empty."] else ns, L) := by
  unfold LinkedList.displayRun
  rw [displayLines_eq h]

/-- C7 witness: on the one-element list "Alice" `display` prints "Alice"
and leaves the state unchanged; instantiated through the claim theorem. -/
theorem claim_C7_witness :
    (LinkedList.mk [Node.mk "Alice" none] (some 0)).displayRun
      = (if (["Alice"] : List String) = [] then ["The list is empty."]
         else ["Alice"],
         LinkedList.mk [Node.mk "Alice" none] (some 0)) :=
  @claim_C7_display_pure
    (LinkedList.mk [Node.mk "Alice" none] (some 0)) ["Alice"]
    (Exists.intro [0]
      (@Seg.cons _ none 0 (Node.mk "Alice" none) [] [] rfl Seg.nil))

/-- C8: `add` accepts any string, including the empty string and names
already present; it never fails, and its only effect is to append exactly
one element holding that name at the tail, preserving the relative order
of all prior elements. -/
theorem claim_C8_add_appends_one {L : LinkedList} {ns : List String}
    (h : Reps L ns) (name : String) :
    Reps (L.add name) (ns ++ [name]) ∧
    (L.add name).displayNames = ns ++ [name] := by
  have h2 := add_reps h name
  exact ⟨h2, displayNames_eq h2⟩

/-- C8 witness: adding the empty string to a list already holding the
empty string (duplicate of an empty text value) appends exactly one
element at the tail. -/
theorem claim_C8_witness :
    Reps ((LinkedList.mk [Node.mk "" none] (some 0)).add "") ([""] ++ [""]) ∧
    ((LinkedList.mk [Node.mk "" none] (some 0)).add "").displayNames
      = [""] ++ [""] :=
  @claim_C8_add_appends_one
    (LinkedList.mk [Node.mk "" none] (some 0)) [""]
    (Exists.intro [0]
      (@Seg.cons _ none 0 (Node.mk "" none) [] [] rfl Seg.nil)) ""

/-- C9: after any sequence of `add`, `remove` and `display` calls starting
from the empty list, following `next` from `head` terminates: the chain is
finite and visits pairwise distinct nodes (no cycles), and every reachable
node has at most one reachable predecessor (no sharing). -/
theorem claim_C9_structural_invariant (ops : List Op) :
    ∃ as ns, Seg (run ops).arena none (run ops).head as ns ∧
      as.Nodup ∧
      ∀ i ∈ as, ∀ j ∈ as, ∀ (b : Nat) (ni nj : Node),
        (run ops).arena[i]? = some ni → (run ops).arena[j]? = some nj →
        ni.next = some b → nj.next = some b → i = j := by
  obtain ⟨ns, as, hseg⟩ := run_reps ops
  refine ⟨as, ns, hseg, hseg.nodup, ?_⟩
  intro i hi j hj b ni nj hgi hgj hni hnj
  exact seg_unique_pred hseg hi hj hgi hni hgj hnj

/-- C10: whenever `remove x` returns `true`, exactly one element is
removed: the length drops by exactly one and the resulting sequence is the
original with its first occurrence of `x` deleted, nothing else changed or
reordered. -/
theorem claim_C10_remove_true_exactly_one {L : LinkedList}
    {ns : List String} {x : String} (h : Reps L ns)
    (hret : (L.remove x).1 = true) :
    ∃ ns1 ns2, ns = ns1 ++ x :: ns2 ∧ x ∉ ns1 ∧
      Reps (L.remove x).2 (ns1 ++ ns2) ∧
      (ns1 ++ ns2).length + 1 = ns.length := by
  have hmem : x ∈ ns := (remove_ret_iff x h).mp hret
  obtain ⟨ns1, ns2, heq, hnot⟩ := first_occurrence hmem
  refine ⟨ns1, ns2, heq, hnot, ?_, by rw [heq]; simp; omega⟩
  have hreps := remove_reps x h
  rw [heq, eraseFirst_first_occurrence hnot] at hreps
  exact hreps

/-- C10 witness: removing "x" from "a", "x", "x" returns `true` and the
resulting sequence is "a", "x" — exactly one element shorter. -/
theorem claim_C10_witness :
    ∃ ns1 ns2, ["a", "x", "x"] = ns1 ++ "x" :: ns2 ∧ "x" ∉ ns1 ∧
      Reps ((LinkedList.mk [Node.mk "a" (some 1), Node.mk "x" (some 2),
        Node.mk "x" none] (some 0)).remove "x").2 (ns1 ++ ns2) ∧
      (ns1 ++ ns2).length + 1 = (["a", "x", "x"] : List String).length :=
  @claim_C10_remove_true_exactly_one
    (LinkedList.mk [Node.mk "a" (some 1), Node.mk "x" (some 2),
      Node.mk "x" none] (some 0))
    ["a", "x", "x"] "x"
    (Exists.intro [0, 1, 2]
      (@Seg.cons _ none 0 (Node.mk "a" (some 1)) [1, 2] ["x", "x"] rfl
        (@Seg.cons _ none 1 (Node.mk "x" (some 2)) [2] ["x"] rfl
          (@Seg.cons _ none 2 (Node.mk "x" none) [] [] rfl Seg.nil))))
    (by decide)

end Names
